import Mathlib

/-!
Shallow embedding of the core of the `squashfs-rs` repository, and proofs
about it.

Bytes are modelled as `Nat` (the source works with `u8` buffers; all
arithmetic that can overflow in the source is modelled with explicit
truncation).  Byte buffers (`Vec<u8>`, `&[u8]`) are `List Nat`.
Rust panics (integer under/overflow, `unimplemented!()`, `.unwrap()`
failures) are modelled by returning `Option.none` / `Except.error`.

Each definition carries a comment naming the Rust item it embeds.
-/

namespace Squashfs

set_option maxHeartbeats 1000000
set_option maxRecDepth 10000

/-! ## `repr/src/metablock.rs` -/

/-- `repr::metablock::SIZE = 8 * 1024` -/
def SIZE : Nat := 8 * 1024

/-- `repr::metablock::COMPRESSED_FLAG = 0x8000` -/
def COMPRESSED_FLAG : Nat := 0x8000

/-- `repr::metablock::Ref::new(block_start, offset)`:
`Self(block_start << 16 | offset)` where `block_start : u32`, `offset : u16`.
The packed value is a `u64`; callers guarantee `block_start < 2^32` and
`offset < 2^16` (the source converts with `try_into().unwrap()`). -/
def refNew (blockStart offset : Nat) : Nat :=
  blockStart <<< 16 ||| offset

/-- `repr::metablock::Ref::block_start`: `(self.0 >> 16) & 0xFFFF_FFFF` -/
def refBlockStart (r : Nat) : Nat :=
  (r >>> 16) &&& 0xFFFFFFFF

/-- `repr::metablock::Ref::start_offset`: `self.0 & 0xFFFF` -/
def refStartOffset (r : Nat) : Nat :=
  r &&& 0xFFFF

/-- `repr::metablock::Header::new(size, compressed)`:
`Self(size | (if compressed { COMPRESSED_FLAG } else { 0 }))` on `u16`. -/
def headerValue (size : Nat) (compressed : Bool) : Nat :=
  size ||| (if compressed then COMPRESSED_FLAG else 0)

/-- `repr::metablock::Header::compressed`: `self.0 & COMPRESSED_FLAG == COMPRESSED_FLAG` -/
def headerCompressed (v : Nat) : Bool :=
  v &&& COMPRESSED_FLAG == COMPRESSED_FLAG

/-- `repr::metablock::Header::size`: `self.0 & !COMPRESSED_FLAG` (`!0x8000 = 0x7FFF` on `u16`) -/
def headerSize (v : Nat) : Nat :=
  v &&& 0x7FFF

/-- The two bytes of a `u16` value in little-endian order, as written by
`header.as_bytes()` for the `repr(C, packed)` `Header(u16)` (the on-disk
format is little-endian). -/
def toLE16 (v : Nat) : List Nat :=
  [v % 256, (v / 256) % 256]

/-- Reading back a little-endian `u16` from two bytes. -/
def ofLE16 (b0 b1 : Nat) : Nat := b0 + 256 * b1

/-! ### Packing arithmetic -/

theorem shiftLeft_or_eq (b o k : Nat) (h : o < 2 ^ k) :
    b <<< k ||| o = b * 2 ^ k + o := by
  rw [Nat.shiftLeft_eq, Nat.mul_comm b (2 ^ k), ← Nat.mul_add_lt_is_or h]

theorem refStartOffset_refNew (b o : Nat) (h : o < 2 ^ 16) :
    refStartOffset (refNew b o) = o := by
  have : refNew b o = b * 2 ^ 16 + o := shiftLeft_or_eq b o 16 h
  unfold refStartOffset
  rw [this]
  have h65535 : (0xFFFF : Nat) = 2 ^ 16 - 1 := by norm_num
  rw [h65535, Nat.and_pow_two_sub_one_eq_mod]
  omega

theorem refBlockStart_refNew (b o : Nat) (hb : b < 2 ^ 32) (h : o < 2 ^ 16) :
    refBlockStart (refNew b o) = b := by
  have : refNew b o = b * 2 ^ 16 + o := shiftLeft_or_eq b o 16 h
  unfold refBlockStart
  rw [this]
  have hsr : (b * 2 ^ 16 + o) >>> 16 = b := by
    rw [Nat.shiftRight_eq_div_pow]
    omega
  rw [hsr]
  have h32 : (0xFFFFFFFF : Nat) = 2 ^ 32 - 1 := by norm_num
  rw [h32, Nat.and_pow_two_sub_one_eq_mod]
  omega

theorem headerValue_eq (size : Nat) (c : Bool) (h : size < 2 ^ 15) :
    headerValue size c = size + (if c then 2 ^ 15 else 0) := by
  unfold headerValue COMPRESSED_FLAG
  cases c with
  | false => simp
  | true =>
    simp only [if_true]
    have : (0x8000 : Nat) = 1 <<< 15 := by decide
    rw [this, Nat.or_comm, shiftLeft_or_eq 1 size 15 h]
    omega

theorem headerSize_headerValue (size : Nat) (c : Bool) (h : size < 2 ^ 15) :
    headerSize (headerValue size c) = size := by
  rw [headerValue_eq size c h]
  unfold headerSize
  have h7FFF : (0x7FFF : Nat) = 2 ^ 15 - 1 := by norm_num
  rw [h7FFF, Nat.and_pow_two_sub_one_eq_mod]
  cases c <;> simp <;> omega

theorem headerCompressed_headerValue (size : Nat) (c : Bool) (h : size < 2 ^ 15) :
    headerCompressed (headerValue size c) = c := by
  rw [headerValue_eq size c h]
  unfold headerCompressed COMPRESSED_FLAG
  have hand : ∀ x : Nat, x &&& 0x8000 = (if x.testBit 15 then 2 ^ 15 else 0) := by
    intro x
    have : (0x8000 : Nat) = 2 ^ 15 := by norm_num
    rw [this, Nat.and_two_pow]
    cases hx : x.testBit 15 <;> simp [hx]
  cases c with
  | false =>
    simp only [Bool.false_eq_true, if_false, Nat.add_zero]
    rw [hand]
    have : size.testBit 15 = false := Nat.testBit_eq_false_of_lt h
    simp [this]
  | true =>
    simp only [if_pos rfl]
    rw [hand]
    have h2 : (size + if True then 2 ^ 15 else 0).testBit 15 = true := by
      have h1 : (size + if True then 2 ^ 15 else 0) = 1 * 2 ^ 15 + size := by
        simp only [if_true]; omega
      rw [Nat.testBit, h1]
      have h3 : (1 * 2 ^ 15 + size) >>> 15 = 1 := by
        rw [Nat.shiftRight_eq_div_pow]
        omega
      rw [h3]
      rfl
    rw [h2]
    norm_num

theorem ofLE16_toLE16 (v : Nat) (h : v < 2 ^ 16) :
    ofLE16 (v % 256) ((v / 256) % 256) = v := by
  unfold ofLE16
  omega

/-! ## `src/compress_threads.rs`

The parallel compressor's worker body (`thread_fn`).  The codec itself is
out of scope (per-codec glue); it is a parameter.  `compressInto src cap`
models `compressor.compress(&src, &mut dst)` with `dst.len() = cap`:
`some out` is `Ok(n)` with `out` the `n` written bytes (`dst.truncate(n)`),
`none` is `Err(UnexpectedEof)` (the codec could not fit the output in
`dst`). -/

structure Codec where
  compressInto : List Nat → Nat → Option (List Nat)
  decomp : List Nat → List Nat

/-- The codec contract: `compress` writes at most `dst.len()` bytes. -/
def Codec.Fits (c : Codec) : Prop :=
  ∀ src cap out, c.compressInto src cap = some out → out.length ≤ cap

/-- The codec contract: decompressing the compressed bytes restores the input. -/
def Codec.RoundTrip (c : Codec) : Prop :=
  ∀ src cap out, c.compressInto src cap = some out → c.decomp out = src

/-- The `Compress` arm of `thread_fn`'s loop body
(`src/compress_threads.rs:125-148`): the destination buffer is resized to
`src.len() - 1`; on `Ok(n)` the reply is the compressed bytes with
`compressed = true`, on `Err(UnexpectedEof)` it is the original input with
`compressed = false`.  `none` models the panic of `dst.resize(src.len() - 1, 0)`
when `src.len() = 0` (`usize` subtraction underflow). -/
def threadCompress (c : Codec) (src : List Nat) : Option (List Nat × Bool) :=
  if src.length = 0 then
    none
  else
    match c.compressInto src (src.length - 1) with
    | some out => some (out, true)
    | none => some (src, false)

/-! ## `src/write/metablock_writer.rs` -/

/-- `MetablockWriter { compressor, output, current_block }`.  The buffer
pool (`pool::block()`) only recycles allocations; a detached pool block is
an empty `Vec<u8>`. -/
structure MetablockWriter where
  compressor : Option Codec
  output : List Nat
  current : List Nat

/-- `MetablockWriter::new(compressor)` (capacity only preallocates). -/
def MetablockWriter.new (c : Option Codec) : MetablockWriter :=
  ⟨c, [], []⟩

/-- `MetablockWriter::position()`:
`Ref::new(output.len().try_into().unwrap(), current_block.len().try_into().unwrap())`.
(The unwraps panic only for outputs of at least 2^32 bytes; the theorems
below stay far below that.) -/
def MetablockWriter.position (w : MetablockWriter) : Nat :=
  refNew w.output.length w.current.length

/-- `MetablockWriter::write_output(output, data, compressed)`: append the
2-byte framing header then the data. -/
def writeOutput (output data : List Nat) (compressed : Bool) : List Nat :=
  output ++ toLE16 (headerValue data.length compressed) ++ data

/-- `MetablockWriter::flush()` in terms of its parts.  With a compressor the
current block goes through `thread_fn`'s `Compress` arm (the writer awaits
the reply), without one it is emitted raw.  Either way `current_block`
becomes empty afterwards (a fresh pool block / `clear()`); callers pass the
fields and rebuild the writer.  `none` propagates the `threadCompress`
panic. -/
def flushParts (c? : Option Codec) (output current : List Nat) : Option (List Nat) :=
  match c? with
  | some c =>
    match threadCompress c current with
    | some (data, compressed) => some (writeOutput output data compressed)
    | none => none
  | none => some (writeOutput output current false)

/-- `MetablockWriter::write_raw(&mut self, data)`:

```rust
while repr::metablock::SIZE - self.current_block.len() < data.len() {
    let (head, tail) = data.split_at(repr::metablock::SIZE - self.current_block.len());
    self.current_block.extend_from_slice(head);
    self.flush().await;
    data = tail;
}
self.current_block.extend_from_slice(data);
```
-/
def MetablockWriter.writeRaw (w : MetablockWriter) (data : List Nat) :
    Option MetablockWriter :=
  if SIZE - w.current.length < data.length then
    match flushParts w.compressor w.output
        (w.current ++ data.take (SIZE - w.current.length)) with
    | some newOutput =>
      MetablockWriter.writeRaw ⟨w.compressor, newOutput, []⟩
        (data.drop (SIZE - w.current.length))
    | none => none
  else
    some ⟨w.compressor, w.output, w.current ++ data⟩
termination_by (data.length, w.current.length)
decreasing_by
  by_cases hz : SIZE - w.current.length = 0
  · have hc : SIZE ≤ w.current.length := Nat.sub_eq_zero_iff_le.mp hz
    simp only [List.length_drop, List.length_nil, hz, Nat.sub_zero]
    exact Prod.Lex.right _ (by unfold SIZE at hc; omega)
  · apply Prod.Lex.left
    simp only [List.length_drop]
    omega

/-- `MetablockWriter::finish()`: flush the (possibly partial) current block
and yield the output. -/
def MetablockWriter.finish (w : MetablockWriter) : Option (List Nat) :=
  flushParts w.compressor w.output w.current

/-- A sequence of `write_raw` calls. -/
def MetablockWriter.writeAll (w : MetablockWriter) : List (List Nat) → Option MetablockWriter
  | [] => some w
  | d :: ds =>
    match w.writeRaw d with
    | some w' => w'.writeAll ds
    | none => none

/-! ## `src/read.rs`: `read_metablock`, iterated over a byte stream

`read_metablock` reads the 2-byte header, takes the low 15 bits as the
on-disk size (`HugeMetablock` if it exceeds 8 KiB), reads that many bytes
and, if the high bit was set, decompresses them.  `parseMetablocks`
iterates this over a whole section, returning the framed `(body, compressed)`
pairs; `none` models any `read_metablock` failure. -/
def parseMetablocks (bytes : List Nat) : Option (List (List Nat × Bool)) :=
  match bytes with
  | [] => some []
  | b0 :: b1 :: rest =>
    let v := ofLE16 b0 b1
    let size := headerSize v
    if SIZE < size then none
    else if rest.length < size then none
    else
      match parseMetablocks (rest.drop size) with
      | some blocks => some ((rest.take size, headerCompressed v) :: blocks)
      | none => none
  | _ => none
termination_by bytes.length
decreasing_by
  simp only [List.length_drop, List.length_cons]
  omega

/-- Recovering a metablock's uncompressed body: `if compressed { decompress }`.
A compressed block with no codec bound fails (`CompressedCompressorOptions`). -/
def decodeBody (c? : Option Codec) (b : List Nat × Bool) : Option (List Nat) :=
  if b.2 then
    match c? with
    | some c => some (c.decomp b.1)
    | none => none
  else
    some b.1

/-- Decode every framed block of a section. -/
def decodeBlocks (c? : Option Codec) : List (List Nat × Bool) → Option (List (List Nat))
  | [] => some []
  | b :: bs =>
    match decodeBody c? b, decodeBlocks c? bs with
    | some d, some ds => some (d :: ds)
    | _, _ => none

/-- The byte image of a sequence of framed metablocks, exactly as
`write_output` lays them down. -/
def frameBytes : List (List Nat × Bool) → List Nat
  | [] => []
  | (d, c) :: bs => toLE16 (headerValue d.length c) ++ d ++ frameBytes bs

/-! ## `src/write/two_level.rs` -/

/-- `two_level::Table<T> { data_writer, index }` (the record type only
fixes the byte size of each written item). -/
structure TwoLevelTable where
  data_writer : MetablockWriter
  index : List Nat

/-- `Table::new(compressor)`. -/
def TwoLevelTable.new (c? : Option Codec) : TwoLevelTable :=
  ⟨MetablockWriter.new c?, []⟩

/-- `Table::write(&mut self, item)`:

```rust
self.data_writer.write(item).await;
let position = self.data_writer.position();
if position.start_offset() == 0 {
    self.index.push(position.block_start());
}
```
(`write` serialises the item and forwards to `write_raw`.) -/
def TwoLevelTable.write (t : TwoLevelTable) (itemBytes : List Nat) :
    Option TwoLevelTable :=
  match t.data_writer.writeRaw itemBytes with
  | some w' =>
    let position := w'.position
    if refStartOffset position = 0 then
      some ⟨w', t.index ++ [refBlockStart position]⟩
    else
      some ⟨w', t.index⟩
  | none => none

/-- A sequence of `Table::write` calls. -/
def TwoLevelTable.writeAll (t : TwoLevelTable) : List (List Nat) → Option TwoLevelTable
  | [] => some t
  | d :: ds =>
    match t.write d with
    | some t' => t'.writeAll ds
    | none => none

/-! ## Lemmas about the metablock writer -/

/-- Both codec contract assumptions, for an optional codec. -/
def GoodCodec (c? : Option Codec) : Prop :=
  ∀ c, c? = some c → c.Fits ∧ c.RoundTrip

theorem frameBytes_append (a b : List (List Nat × Bool)) :
    frameBytes (a ++ b) = frameBytes a ++ frameBytes b := by
  induction a with
  | nil => simp [frameBytes]
  | cons x xs ih =>
    obtain ⟨d, c⟩ := x
    simp [frameBytes, ih]

theorem decodeBlocks_append (c? : Option Codec) (a b : List (List Nat × Bool))
    (da db : List (List Nat)) (ha : decodeBlocks c? a = some da)
    (hb : decodeBlocks c? b = some db) :
    decodeBlocks c? (a ++ b) = some (da ++ db) := by
  induction a generalizing da with
  | nil =>
    simp only [decodeBlocks] at ha
    cases ha
    simpa using hb
  | cons x xs ih =>
    simp only [decodeBlocks] at ha
    cases hx : decodeBody c? x with
    | none => rw [hx] at ha; exact absurd ha (by simp)
    | some d =>
      rw [hx] at ha
      cases hxs : decodeBlocks c? xs with
      | none => rw [hxs] at ha; exact absurd ha (by simp)
      | some ds =>
        rw [hxs] at ha
        simp only [Option.some.injEq] at ha
        subst ha
        simp only [List.cons_append, decodeBlocks, hx]
        rw [show xs.append b = xs ++ b from rfl, ih ds hxs]

/-- Success and output shape of one `flush`: it appends one framed
metablock whose body decodes back to the current block.  With a codec the
current block must be non-empty (otherwise `thread_fn` panics, see
`threadCompress`). -/
theorem flushParts_spec (c? : Option Codec) (hG : GoodCodec c?)
    (output current : List Nat) (hne : current ≠ [] ∨ c? = none) :
    ∃ d fl, flushParts c? output current
        = some (output ++ toLE16 (headerValue d.length fl) ++ d) ∧
      decodeBody c? (d, fl) = some current ∧ d.length ≤ current.length := by
  cases c? with
  | none =>
    exact ⟨current, false, rfl, rfl, le_refl _⟩
  | some c =>
    have hcur : current ≠ [] := by
      rcases hne with h | h
      · exact h
      · exact absurd h (by simp)
    have hlen : current.length ≠ 0 := by
      simpa [List.length_eq_zero] using hcur
    obtain ⟨hfits, hrt⟩ := hG c rfl
    cases hco : c.compressInto current (current.length - 1) with
    | some out =>
      refine ⟨out, true, ?_, ?_, ?_⟩
      · simp [flushParts, threadCompress, hlen, hco, writeOutput]
      · simp [decodeBody, hrt current (current.length - 1) out hco]
      · have := hfits current (current.length - 1) out hco
        omega
    | none =>
      refine ⟨current, false, ?_, rfl, le_refl _⟩
      simp [flushParts, threadCompress, hlen, hco, writeOutput]

/-- The one big step lemma for `write_raw`: starting from a writer whose
output frames `blocks` (decoding to `bodies`), `write_raw` succeeds and
extends the frame sequence, and the decoded flushed bytes plus the current
block always equal the previously flushed bytes plus the old current block
plus the newly appended data. -/
theorem writeRaw_spec (c? : Option Codec) (hG : GoodCodec c?) :
    ∀ (w : MetablockWriter) (data : List Nat)
      (blocks : List (List Nat × Bool)) (bodies : List (List Nat)),
      w.compressor = c? →
      w.output = frameBytes blocks →
      w.current.length ≤ SIZE →
      decodeBlocks c? blocks = some bodies →
      (∀ d ∈ bodies, d.length ≤ SIZE) →
      (∀ b ∈ blocks, b.1.length ≤ SIZE) →
      ∃ w' newBlocks newBodies,
        w.writeRaw data = some w' ∧
        w'.compressor = c? ∧
        w'.output = frameBytes (blocks ++ newBlocks) ∧
        w'.current.length ≤ SIZE ∧
        decodeBlocks c? (blocks ++ newBlocks) = some (bodies ++ newBodies) ∧
        (∀ d ∈ bodies ++ newBodies, d.length ≤ SIZE) ∧
        (∀ b ∈ blocks ++ newBlocks, b.1.length ≤ SIZE) ∧
        newBodies.flatten ++ w'.current = w.current ++ data ∧
        ((w.current ≠ [] ∨ data ≠ []) → w'.current ≠ []) := by
  intro w data
  induction w, data using MetablockWriter.writeRaw.induct with
  | case1 w data hlt out hflush ih =>
    intro blocks bodies hc hout hcur hdec hbs hsz
    -- the flushed block is exactly full: `current ++ take (SIZE - len current)`
    have htake : (data.take (SIZE - w.current.length)).length
        = SIZE - w.current.length := by
      simp only [List.length_take]
      omega
    have hfull : (w.current ++ data.take (SIZE - w.current.length)).length = SIZE := by
      simp only [List.length_append, htake]
      omega
    have hfne : w.current ++ data.take (SIZE - w.current.length) ≠ [] := by
      intro hnil
      rw [hnil] at hfull
      simp [SIZE] at hfull
    obtain ⟨d, fl, hfl, hdb, hdlen⟩ :=
      flushParts_spec c? hG w.output (w.current ++ data.take (SIZE - w.current.length))
        (Or.inl hfne)
    rw [← hc] at hfl
    rw [hflush] at hfl
    simp only [Option.some.injEq] at hfl
    -- invariant for the recursive call
    have hout' : out = frameBytes (blocks ++ [(d, fl)]) := by
      rw [hfl, frameBytes_append, ← hout]
      simp [frameBytes, List.append_assoc]
    have hdec' : decodeBlocks c? (blocks ++ [(d, fl)])
        = some (bodies ++ [w.current ++ data.take (SIZE - w.current.length)]) := by
      apply decodeBlocks_append c? _ _ _ _ hdec
      simp [decodeBlocks, hdb]
    have hbs' : ∀ x ∈ bodies ++ [w.current ++ data.take (SIZE - w.current.length)],
        x.length ≤ SIZE := by
      intro x hx
      rcases List.mem_append.mp hx with h | h
      · exact hbs x h
      · simp only [List.mem_singleton] at h
        rw [h, hfull]
    have hsz' : ∀ b ∈ blocks ++ [(d, fl)], b.1.length ≤ SIZE := by
      intro b hb
      rcases List.mem_append.mp hb with h | h
      · exact hsz b h
      · simp only [List.mem_singleton] at h
        subst h
        calc d.length ≤ _ := hdlen
          _ = SIZE := hfull
    obtain ⟨w', nb, nd, hw', hc', hout'', hcur'', hdec'', hbs'', hsz'', hflat, hne⟩ :=
      ih (blocks ++ [(d, fl)]) (bodies ++ [w.current ++ data.take (SIZE - w.current.length)])
        hc hout' (by simp [SIZE]) hdec' hbs' hsz'
    refine ⟨w', [(d, fl)] ++ nb, [w.current ++ data.take (SIZE - w.current.length)] ++ nd,
      ?_, hc', ?_, hcur'', ?_, ?_, ?_, ?_, ?_⟩
    · -- writeRaw unfolds to the recursive call
      rw [MetablockWriter.writeRaw, if_pos hlt, hflush]
      exact hw'
    · rw [hout'']
      simp
    · simp only [← List.append_assoc]
      exact hdec''
    · intro x hx
      apply hbs''
      simpa using hx
    · intro b hb
      apply hsz''
      simpa using hb
    · -- flatten bookkeeping
      simp only [List.flatten_append, List.flatten_cons, List.flatten_nil,
        List.append_nil, List.nil_append, List.append_assoc] at hflat ⊢
      rw [hflat, List.take_append_drop]
    · intro hor
      apply hne
      right
      intro hnil
      have hd : (List.drop (SIZE - w.current.length) data).length = 0 := by
        rw [hnil]; rfl
      simp only [List.length_drop] at hd
      omega
  | case2 w data hlt hflush =>
    intro blocks bodies hc hout hcur hdec hbs hsz
    -- flush of a full (hence non-empty) block cannot fail
    exfalso
    have htake : (data.take (SIZE - w.current.length)).length
        = SIZE - w.current.length := by
      simp only [List.length_take]
      omega
    have hfull : (w.current ++ data.take (SIZE - w.current.length)).length = SIZE := by
      simp only [List.length_append, htake]
      omega
    have hfne : w.current ++ data.take (SIZE - w.current.length) ≠ [] := by
      intro hnil
      rw [hnil] at hfull
      simp [SIZE] at hfull
    obtain ⟨d, fl, hfl, -, -⟩ :=
      flushParts_spec c? hG w.output (w.current ++ data.take (SIZE - w.current.length))
        (Or.inl hfne)
    rw [hc] at hflush
    rw [hflush] at hfl
    exact absurd hfl (by simp)
  | case3 w data hge =>
    intro blocks bodies hc hout hcur hdec hbs hsz
    refine ⟨⟨w.compressor, w.output, w.current ++ data⟩, [], [], ?_, hc, ?_, ?_, ?_, ?_, ?_, ?_, ?_⟩
    · rw [MetablockWriter.writeRaw, if_neg hge]
    · simpa using hout
    · simp only [List.length_append]
      omega
    · simpa using hdec
    · simpa using hbs
    · simpa using hsz
    · simp
    · intro hor hnil
      rcases hor with h | h
      · exact h (by simpa using (List.append_eq_nil.mp hnil).1)
      · exact h (by simpa using (List.append_eq_nil.mp hnil).2)

/-- `writeRaw_spec`, folded over a whole sequence of `write_raw` calls. -/
theorem writeAll_spec (c? : Option Codec) (hG : GoodCodec c?) :
    ∀ (datas : List (List Nat)) (w : MetablockWriter)
      (blocks : List (List Nat × Bool)) (bodies : List (List Nat)),
      w.compressor = c? →
      w.output = frameBytes blocks →
      w.current.length ≤ SIZE →
      decodeBlocks c? blocks = some bodies →
      (∀ d ∈ bodies, d.length ≤ SIZE) →
      (∀ b ∈ blocks, b.1.length ≤ SIZE) →
      ∃ w' newBlocks newBodies,
        w.writeAll datas = some w' ∧
        w'.compressor = c? ∧
        w'.output = frameBytes (blocks ++ newBlocks) ∧
        w'.current.length ≤ SIZE ∧
        decodeBlocks c? (blocks ++ newBlocks) = some (bodies ++ newBodies) ∧
        (∀ d ∈ bodies ++ newBodies, d.length ≤ SIZE) ∧
        (∀ b ∈ blocks ++ newBlocks, b.1.length ≤ SIZE) ∧
        newBodies.flatten ++ w'.current = w.current ++ datas.flatten ∧
        ((w.current ≠ [] ∨ datas.flatten ≠ []) → w'.current ≠ []) := by
  intro datas
  induction datas with
  | nil =>
    intro w blocks bodies hc hout hcur hdec hbs hsz
    refine ⟨w, [], [], rfl, hc, ?_, hcur, ?_, ?_, ?_, ?_, ?_⟩
    · simpa using hout
    · simpa using hdec
    · simpa using hbs
    · simpa using hsz
    · simp
    · intro hor
      rcases hor with h | h
      · exact h
      · simp at h
  | cons d ds ih =>
    intro w blocks bodies hc hout hcur hdec hbs hsz
    obtain ⟨w₁, nb₁, nd₁, hw₁, hc₁, hout₁, hcur₁, hdec₁, hbs₁, hsz₁, hflat₁, hne₁⟩ :=
      writeRaw_spec c? hG w d blocks bodies hc hout hcur hdec hbs hsz
    obtain ⟨w₂, nb₂, nd₂, hw₂, hc₂, hout₂, hcur₂, hdec₂, hbs₂, hsz₂, hflat₂, hne₂⟩ :=
      ih w₁ (blocks ++ nb₁) (bodies ++ nd₁) hc₁ hout₁ hcur₁ hdec₁ hbs₁ hsz₁
    refine ⟨w₂, nb₁ ++ nb₂, nd₁ ++ nd₂, ?_, hc₂, ?_, hcur₂, ?_, ?_, ?_, ?_, ?_⟩
    · simp only [MetablockWriter.writeAll, hw₁]
      exact hw₂
    · simpa [List.append_assoc] using hout₂
    · simpa [List.append_assoc] using hdec₂
    · simpa [List.append_assoc] using hbs₂
    · simpa [List.append_assoc] using hsz₂
    · simp only [List.flatten_append, List.flatten_cons, List.append_assoc]
      rw [hflat₂, ← List.append_assoc, ← List.append_assoc, hflat₁, List.append_assoc]
    · intro hor
      apply hne₂
      simp only [List.flatten_cons] at hor
      by_cases hd : d = []
      · rcases hor with h | h
        · exact Or.inl (hne₁ (Or.inl h))
        · right
          intro hds
          exact h (by rw [hd, hds]; rfl)
      · exact Or.inl (hne₁ (Or.inr hd))

/-- Soundness of the reader's framing: `read_metablock`, iterated, recovers
exactly the framed blocks the writer laid down. -/
theorem parse_frameBytes (blocks : List (List Nat × Bool))
    (h : ∀ b ∈ blocks, b.1.length ≤ SIZE) :
    parseMetablocks (frameBytes blocks) = some blocks := by
  induction blocks with
  | nil =>
    show parseMetablocks [] = some []
    rw [parseMetablocks]
  | cons b bs ih =>
    obtain ⟨d, c⟩ := b
    have hd : d.length ≤ SIZE := h (d, c) (by simp)
    have hd15 : d.length < 2 ^ 15 := by
      unfold SIZE at hd
      omega
    have hv : headerValue d.length c < 2 ^ 16 := by
      rw [headerValue_eq d.length c hd15]
      cases c <;> simp <;> omega
    show parseMetablocks (toLE16 (headerValue d.length c) ++ d ++ frameBytes bs) = _
    have hshape : toLE16 (headerValue d.length c) ++ d ++ frameBytes bs
        = (headerValue d.length c) % 256 :: ((headerValue d.length c) / 256 % 256)
          :: (d ++ frameBytes bs) := by
      simp [toLE16, List.append_assoc]
    rw [hshape, parseMetablocks]
    simp only [ofLE16_toLE16 _ hv, headerSize_headerValue _ _ hd15,
      headerCompressed_headerValue _ _ hd15]
    rw [if_neg (by omega), if_neg (by simp only [List.length_append]; omega)]
    rw [List.drop_left, List.take_left]
    rw [ih (fun x hx => h x (by simp [hx]))]

/-- `write_raw` with empty data leaves the writer unchanged. -/
theorem writeRaw_nil (w : MetablockWriter) : w.writeRaw [] = some w := by
  rw [MetablockWriter.writeRaw]
  rw [if_neg (by simp)]
  cases w
  simp

theorem writeAll_all_nil (w : MetablockWriter) (datas : List (List Nat))
    (h : ∀ d ∈ datas, d = []) : w.writeAll datas = some w := by
  induction datas with
  | nil => rfl
  | cons d ds ih =>
    have hd : d = [] := h d (by simp)
    subst hd
    simp only [MetablockWriter.writeAll, writeRaw_nil]
    exact ih (fun x hx => h x (by simp [hx]))

/-! ## Claim theorems -/

/-- C2: for every finite sequence of `write_raw` appends (arbitrary byte
lengths, records larger than 8 KiB included) followed by `finish()`, the
returned output parses into a sequence of 2-byte-header-framed metablocks,
each with on-disk size ≤ 8192 and uncompressed size ≤ 8192, and the
concatenation of the decompressed bodies equals the concatenation of the
appended bytes.  (With a codec bound, at least one byte must have been
appended, otherwise `finish` panics — that case is claim C10.) -/
theorem C2_metablock_stream_roundtrip (c? : Option Codec) (hG : GoodCodec c?)
    (datas : List (List Nat)) (hne : c? = none ∨ datas.flatten ≠ []) :
    ∃ w out blocks bodies,
      (MetablockWriter.new c?).writeAll datas = some w ∧
      w.finish = some out ∧
      parseMetablocks out = some blocks ∧
      (∀ b ∈ blocks, b.1.length ≤ SIZE) ∧
      decodeBlocks c? blocks = some bodies ∧
      (∀ d ∈ bodies, d.length ≤ SIZE) ∧
      bodies.flatten = datas.flatten := by
  obtain ⟨w, nb, nd, hw, hcW, hout, hcur, hdec, hbs, hsz, hflat, hneW⟩ :=
    writeAll_spec c? hG datas (MetablockWriter.new c?) [] [] rfl rfl
      (by simp [MetablockWriter.new, SIZE]) rfl (by simp) (by simp)
  have hfinne : w.current ≠ [] ∨ c? = none := by
    rcases hne with h | h
    · exact Or.inr h
    · exact Or.inl (hneW (Or.inr h))
  obtain ⟨d, fl, hfl, hdb, hdlen⟩ := flushParts_spec c? hG w.output w.current hfinne
  have hfin : w.finish = some (w.output ++ toLE16 (headerValue d.length fl) ++ d) := by
    unfold MetablockWriter.finish
    rw [hcW]
    exact hfl
  have houtF : w.output = frameBytes nb := by simpa using hout
  have hdecF : decodeBlocks c? nb = some nd := by simpa using hdec
  have hsizes : ∀ b ∈ nb ++ [(d, fl)], b.1.length ≤ SIZE := by
    intro b hb
    rcases List.mem_append.mp hb with h | h
    · exact hsz b (by simpa using h)
    · simp only [List.mem_singleton] at h
      subst h
      exact le_trans hdlen hcur
  refine ⟨w, w.output ++ toLE16 (headerValue d.length fl) ++ d, nb ++ [(d, fl)],
    nd ++ [w.current], hw, hfin, ?_, hsizes, ?_, ?_, ?_⟩
  · have : w.output ++ toLE16 (headerValue d.length fl) ++ d
        = frameBytes (nb ++ [(d, fl)]) := by
      rw [frameBytes_append, houtF]
      simp [frameBytes, List.append_assoc]
    rw [this]
    exact parse_frameBytes _ hsizes
  · apply decodeBlocks_append c? _ _ _ _ hdecF
    simp [decodeBlocks, hdb]
  · intro x hx
    rcases List.mem_append.mp hx with h | h
    · exact hbs x (by simpa using h)
    · simp only [List.mem_singleton] at h
      subst h
      exact hcur
  · rw [List.flatten_append]
    simp only [List.flatten_cons, List.flatten_nil, List.append_nil]
    simpa using hflat

/-- Witness for C2 at the concrete input: no codec, appends `[[1, 2, 3]]`. -/
theorem C2_witness :
    GoodCodec none ∧ ((none : Option Codec) = none ∨ ([[1, 2, 3]] : List (List Nat)).flatten ≠ []) ∧
    (∃ w out blocks bodies,
      (MetablockWriter.new none).writeAll [[1, 2, 3]] = some w ∧
      w.finish = some out ∧
      parseMetablocks out = some blocks ∧
      (∀ b ∈ blocks, b.1.length ≤ SIZE) ∧
      decodeBlocks none blocks = some bodies ∧
      (∀ d ∈ bodies, d.length ≤ SIZE) ∧
      bodies.flatten = ([[1, 2, 3]] : List (List Nat)).flatten) :=
  ⟨fun c h => absurd h (by simp), Or.inl rfl,
    C2_metablock_stream_roundtrip none (fun c h => absurd h (by simp))
      [[1, 2, 3]] (Or.inl rfl)⟩

/-- C3: for every `Compress` request with a non-empty input, the worker
produces exactly one reply; the destination buffer is sized
`len(input) - 1`, a `ShortOutput` from the codec yields the original bytes
with `compressed = false`, success yields the codec's bytes with
`compressed = true`, and in both cases `len(reply.data) ≤ len(request.data)`. -/
theorem C3_compress_fallback (c : Codec) (hfits : c.Fits)
    (src : List Nat) (hne : src ≠ []) :
    ∃ data compressed, threadCompress c src = some (data, compressed) ∧
      data.length ≤ src.length ∧
      (compressed = true → c.compressInto src (src.length - 1) = some data) ∧
      (compressed = false → data = src ∧ c.compressInto src (src.length - 1) = none) := by
  have hlen : src.length ≠ 0 := by simpa [List.length_eq_zero] using hne
  cases hco : c.compressInto src (src.length - 1) with
  | some out =>
    refine ⟨out, true, ?_, ?_, fun _ => rfl, fun h => absurd h (by simp)⟩
    · simp [threadCompress, hlen, hco]
    · have := hfits src (src.length - 1) out hco
      omega
  | none =>
    refine ⟨src, false, ?_, le_refl _, fun h => absurd h (by simp), fun _ => ⟨rfl, rfl⟩⟩
    simp [threadCompress, hlen, hco]

/-- Witness for C3 at a concrete codec (always `ShortOutput`) and input `[7]`. -/
theorem C3_witness :
    (Codec.mk (fun _ _ => none) id).Fits ∧ ([7] : List Nat) ≠ [] ∧
    (∃ data compressed,
      threadCompress (Codec.mk (fun _ _ => none) id) [7] = some (data, compressed) ∧
      data.length ≤ ([7] : List Nat).length ∧
      (compressed = true →
        (Codec.mk (fun _ _ => none) id).compressInto [7] (([7] : List Nat).length - 1) = some data) ∧
      (compressed = false → data = [7] ∧
        (Codec.mk (fun _ _ => none) id).compressInto [7] (([7] : List Nat).length - 1) = none)) :=
  ⟨fun _ _ out h => absurd h (by simp), by simp,
    C3_compress_fallback (Codec.mk (fun _ _ => none) id)
      (fun _ _ out h => absurd h (by simp)) [7] (by simp)⟩

/-- C10: a `Compress` request with an empty input panics in the worker
(`dst.resize(src.len() - 1, 0)` underflows `usize`), modelled as `none`;
and this is reachable from the public interface: `finish()` on a
`MetablockWriter` with a codec bound whose current buffer is empty (no
bytes appended since the last flush) always flushes the empty buffer
through the compressor. -/
theorem C10_empty_compress_panics (c : Codec) (datas : List (List Nat))
    (hflat : datas.flatten = []) :
    threadCompress c [] = none ∧
    ∃ w, (MetablockWriter.new (some c)).writeAll datas = some w ∧
      w.current = [] ∧ w.finish = none := by
  have hall : ∀ d ∈ datas, d = [] := by
    induction datas with
    | nil => intro d hd; simp at hd
    | cons x xs ih =>
      simp only [List.flatten_cons, List.append_eq_nil] at hflat
      intro d hd
      rcases List.mem_cons.mp hd with h | h
      · rw [h]; exact hflat.1
      · exact ih hflat.2 d h
  refine ⟨by simp [threadCompress], MetablockWriter.new (some c),
    writeAll_all_nil _ _ hall, rfl, ?_⟩
  simp [MetablockWriter.finish, MetablockWriter.new, flushParts, threadCompress]

/-- Witness for C10 at the concrete input: a trivial codec and no appends. -/
theorem C10_witness :
    ([] : List (List Nat)).flatten = [] ∧
    (threadCompress (Codec.mk (fun _ _ => none) id) [] = none ∧
    ∃ w, (MetablockWriter.new (some (Codec.mk (fun _ _ => none) id))).writeAll [] = some w ∧
      w.current = [] ∧ w.finish = none) :=
  ⟨rfl, C10_empty_compress_panics (Codec.mk (fun _ _ => none) id) [] rfl⟩

/-! ## The two-level table's index (claim C4) -/

/-- The reachable-state invariant of a metablock writer, packaged. -/
def WriterInv (c? : Option Codec) (w : MetablockWriter) : Prop :=
  w.compressor = c? ∧ w.current.length ≤ SIZE ∧
  ∃ blocks bodies, w.output = frameBytes blocks ∧
    decodeBlocks c? blocks = some bodies ∧
    (∀ d ∈ bodies, d.length ≤ SIZE) ∧ (∀ b ∈ blocks, b.1.length ≤ SIZE)

theorem writerInv_new (c? : Option Codec) : WriterInv c? (MetablockWriter.new c?) :=
  ⟨rfl, by simp [MetablockWriter.new, SIZE], [], [], rfl, rfl, by simp, by simp⟩

theorem writeRaw_inv (c? : Option Codec) (hG : GoodCodec c?) (w : MetablockWriter)
    (hw : WriterInv c? w) (data : List Nat) :
    ∃ w', w.writeRaw data = some w' ∧ WriterInv c? w' ∧
      (data ≠ [] → w'.current ≠ []) := by
  obtain ⟨hc, hcur, blocks, bodies, hout, hdec, hbs, hsz⟩ := hw
  obtain ⟨w', nb, nd, hw', hc', hout', hcur', hdec', hbs', hsz', hflat', hne'⟩ :=
    writeRaw_spec c? hG w data blocks bodies hc hout hcur hdec hbs hsz
  exact ⟨w', hw', ⟨hc', hcur', blocks ++ nb, bodies ++ nd, hout', hdec', hbs', hsz'⟩,
    fun hd => hne' (Or.inr hd)⟩

/-- One `Table::write` never records an index entry: after `write_raw` of a
non-empty record the current block holds between 1 and 8192 bytes (a block
filled to exactly 8 KiB stays buffered until the next write), so
`position().start_offset()` is never 0. -/
theorem tableWrite_index (c? : Option Codec) (hG : GoodCodec c?)
    (t : TwoLevelTable) (hw : WriterInv c? t.data_writer)
    (item : List Nat) (hne : item ≠ []) :
    ∃ t', t.write item = some t' ∧ t'.index = t.index ∧
      WriterInv c? t'.data_writer := by
  obtain ⟨w', hw', hinv', hcur'⟩ := writeRaw_inv c? hG t.data_writer hw item
  have hlen : w'.current.length ≠ 0 := by
    have := hcur' hne
    simpa [List.length_eq_zero] using this
  have hlt : w'.current.length < 2 ^ 16 := by
    have := hinv'.2.1
    unfold SIZE at this
    omega
  have hoff : refStartOffset w'.position = w'.current.length := by
    unfold MetablockWriter.position
    exact refStartOffset_refNew _ _ hlt
  refine ⟨⟨w', t.index⟩, ?_, rfl, hinv'⟩
  unfold TwoLevelTable.write
  rw [hw']
  simp only [hoff]
  rw [if_neg hlen]

/-- C4: the two-level table's auxiliary index stays empty for every
sequence of appended records, however many metablocks the data spans.
(The push condition `position().start_offset() == 0` never holds after a
write, because `write_raw` leaves a just-filled 8 KiB block buffered and
flushes it only on the next write.)  The reader's per-metablock index
lookup `index[n / (8192 / sizeof(T))]` therefore has no entries to read:
the claimed indexing invariant fails on the code. -/
theorem C4_two_level_index_always_empty (c? : Option Codec) (hG : GoodCodec c?)
    (items : List (List Nat)) (hne : ∀ i ∈ items, i ≠ []) :
    ∃ t, (TwoLevelTable.new c?).writeAll items = some t ∧ t.index = [] := by
  suffices h : ∀ (items : List (List Nat)) (t : TwoLevelTable),
      WriterInv c? t.data_writer → (∀ i ∈ items, i ≠ []) →
      ∃ t', t.writeAll items = some t' ∧ t'.index = t.index by
    obtain ⟨t', ht', hidx⟩ := h items (TwoLevelTable.new c?) (writerInv_new c?) hne
    exact ⟨t', ht', hidx⟩
  intro items
  induction items with
  | nil =>
    intro t hwv hni
    exact ⟨t, rfl, rfl⟩
  | cons i is ih =>
    intro t hwv hni
    obtain ⟨t₁, ht₁, hidx₁, hinv₁⟩ :=
      tableWrite_index c? hG t hwv i (hni i (by simp))
    obtain ⟨t₂, ht₂, hidx₂⟩ := ih t₁ hinv₁ (fun x hx => hni x (by simp [hx]))
    refine ⟨t₂, ?_, by rw [hidx₂, hidx₁]⟩
    simp only [TwoLevelTable.writeAll, ht₁]
    exact ht₂

/-- Witness for C4: no codec, one 16-byte record (one fragment entry). -/
theorem C4_witness :
    GoodCodec none ∧ (∀ i ∈ [List.replicate 16 (0 : Nat)], i ≠ []) ∧
    (∃ t, (TwoLevelTable.new none).writeAll [List.replicate 16 (0 : Nat)] = some t ∧
      t.index = []) :=
  ⟨fun c h => absurd h (by simp), by simp,
    C4_two_level_index_always_empty none (fun c h => absurd h (by simp))
      [List.replicate 16 0] (by simp)⟩

/-! ## `repr/src/superblock.rs` and `src/read.rs`: opening validation -/

/-- `repr::superblock::MAGIC = 0x7371_7368` -/
def MAGIC : Nat := 0x73717368

/-- `repr::superblock::VERSION_MAJOR / VERSION_MINOR` -/
def VERSION_MAJOR : Nat := 4

def VERSION_MINOR : Nat := 0

/-- `compression::Kind` (`src/compression/mod.rs`). -/
inductive CompressionKind
  | zlib | lzma | lzo | xz | lz4 | zstd | unknown
  deriving DecidableEq, Repr

/-- `compression::Kind::from_id` (ids `GZIP=1 .. ZSTD=6`). -/
def kindFromId (id : Nat) : CompressionKind :=
  if id = 1 then .zlib
  else if id = 2 then .lzma
  else if id = 3 then .lzo
  else if id = 4 then .xz
  else if id = 5 then .lz4
  else if id = 6 then .zstd
  else .unknown

/-- `repr::superblock::Superblock` (all integers as raw values; `flags` is
the raw `u16`; `compression_id` the raw `u16`). -/
structure Superblock where
  magic : Nat
  inode_count : Nat
  modification_time : Nat
  block_size : Nat
  fragment_entry_count : Nat
  compression_id : Nat
  block_log : Nat
  flags : Nat
  id_count : Nat
  version_major : Nat
  version_minor : Nat
  root_inode_ref : Nat
  bytes_used : Nat
  id_table_start : Nat
  xattr_id_table_start : Nat
  inode_table_start : Nat
  directory_table_start : Nat
  fragment_table_start : Nat
  export_table_start : Nat
  deriving DecidableEq, Repr

/-- `SuperblockError` (`src/errors.rs`), the constructors relevant to
opening. -/
inductive SuperblockError
  | badMagic | badVersion | corruptBlockSizes
  | unknownCompression | disabledCompression | unsupportedOption
  deriving DecidableEq, Repr

/-- `validate_superblock` (`src/read.rs:135-170`).  `supported` stands for
`compression::Kind::supported`, which is decided by build features
(`cfg!(feature = ...)`); it is a parameter here.  `1 << block_log` is a
`u32` shift: the shift amount is masked to the bit width (release
semantics), hence `% 32`. -/
def validateSuperblock (supported : CompressionKind → Bool) (sb : Superblock) :
    Except SuperblockError CompressionKind :=
  if sb.magic ≠ MAGIC then .error .badMagic
  else if sb.version_major ≠ VERSION_MAJOR ∨ sb.version_minor ≠ VERSION_MINOR then
    .error .badVersion
  else if sb.block_size ≠ 1 <<< (sb.block_log % 32) then .error .corruptBlockSizes
  else
    let kind := kindFromId sb.compression_id
    if kind = .unknown then .error .unknownCompression
    else if ¬ supported kind then .error .disabledCompression
    else .ok kind

/-- `repr::superblock::Flags::all()`: the twelve defined flag bits 0..11. -/
def flagsAll : Nat := 0x0FFF

/-- The flag check in `Archive::with_logger` (`src/read.rs:59-67`):

```rust
if !(flags & repr::superblock::Flags::all()).is_empty() {
    return Err(SuperblockError::UnsupportedOption(..).into());
}
```
(`is_empty` tests `bits == 0`; decoding preserves unknown bits.) -/
def checkFlags (flags : Nat) : Except SuperblockError Unit :=
  if flags &&& flagsAll ≠ 0 then .error .unsupportedOption else .ok ()

/-- The superblock-validation prefix of `Archive::with_logger`
(`src/read.rs:52-67`): decode, `validate_superblock`, then the flag check. -/
def openSuperblockChecks (supported : CompressionKind → Bool) (sb : Superblock) :
    Except SuperblockError CompressionKind :=
  match validateSuperblock supported sb with
  | .error e => .error e
  | .ok kind =>
    match checkFlags sb.flags with
    | .error e => .error e
    | .ok _ => .ok kind

/-- A superblock whose `block_size = 2048` is a power of two consistent
with `block_log = 11` but below the 4 KiB minimum; all other fields valid. -/
def sbBlock2048 : Superblock :=
  ⟨MAGIC, 1, 0, 2048, 0, 1, 11, 0, 1, VERSION_MAJOR, VERSION_MINOR,
    0, 96, 96, 96, 96, 96, 96, 96⟩

/-- C7 (the code violates it): `validate_superblock` never checks the
block-size range `[4096, 1048576]`.  A superblock with
`block_size = 2048 = 1 << 11` and `block_log = 11` is accepted
(`Ok(ZLib)`), although the claim requires `CorruptBlockSizes`. -/
theorem C7_block_size_range_not_checked (supported : CompressionKind → Bool)
    (hz : supported .zlib = true) :
    validateSuperblock supported sbBlock2048 = .ok .zlib ∧
    sbBlock2048.block_size = 1 <<< (sbBlock2048.block_log % 32) ∧
    sbBlock2048.block_size < 4096 := by
  refine ⟨?_, by decide, by decide⟩
  simp [validateSuperblock, sbBlock2048, MAGIC, VERSION_MAJOR, VERSION_MINOR,
    kindFromId, hz]

/-- Witness for C7: the build supports exactly gzip. -/
theorem C7_witness :
    (fun k => k = CompressionKind.zlib : CompressionKind → Bool) .zlib = true ∧
    (validateSuperblock (fun k => k = CompressionKind.zlib) sbBlock2048 = .ok .zlib ∧
     sbBlock2048.block_size = 1 <<< (sbBlock2048.block_log % 32) ∧
     sbBlock2048.block_size < 4096) :=
  ⟨by decide, C7_block_size_range_not_checked _ (by decide)⟩

/-- An otherwise-valid superblock (gzip, 4 KiB blocks) with the given raw
flags field. -/
def sbWithFlags (flags : Nat) : Superblock :=
  ⟨MAGIC, 1, 0, 4096, 0, 1, 12, flags, 1, VERSION_MAJOR, VERSION_MINOR,
    0, 96, 96, 96, 96, 96, 96, 96⟩

/-- C8 (the code violates it): the unknown-flags check is inverted.  It
masks the flags with the *defined* set (`flags & Flags::all()`) and
rejects when the result is non-zero, so a superblock with only the defined
flag bit 0 (`UNCOMPRESSED_INODES = 0x0001`) set is rejected with
`UnsupportedOption`, while one with only the undefined bit 12 (`0x1000`)
set passes the flag check and opens — the exact opposite of the claim in
both directions. -/
theorem C8_unknown_flags_check_inverted (supported : CompressionKind → Bool)
    (hz : supported .zlib = true) :
    openSuperblockChecks supported (sbWithFlags 0x0001) = .error .unsupportedOption ∧
    openSuperblockChecks supported (sbWithFlags 0x1000) = .ok .zlib ∧
    0x0001 &&& flagsAll = 0x0001 ∧
    0x1000 &&& flagsAll = 0 := by
  refine ⟨?_, ?_, by decide, by decide⟩ <;>
    simp [openSuperblockChecks, validateSuperblock, checkFlags, sbWithFlags,
      MAGIC, VERSION_MAJOR, VERSION_MINOR, kindFromId, flagsAll, hz,
      show (4096 &&& 4095 : Nat) = 0 by decide,
      show (1 &&& 4095 : Nat) = 1 by decide]

/-- Witness for C8: the build supports exactly gzip. -/
theorem C8_witness :
    (fun k => k = CompressionKind.zlib : CompressionKind → Bool) .zlib = true ∧
    (openSuperblockChecks (fun k => k = CompressionKind.zlib) (sbWithFlags 0x0001)
        = .error .unsupportedOption ∧
     openSuperblockChecks (fun k => k = CompressionKind.zlib) (sbWithFlags 0x1000)
        = .ok .zlib ∧
     0x0001 &&& flagsAll = 0x0001 ∧
     0x1000 &&& flagsAll = 0) :=
  ⟨by decide, C8_unknown_flags_check_inverted _ (by decide)⟩

/-! ## `packed_serialize` (`packed_serialize/src/lib.rs`,
`packed_serialize_derive/src/lib.rs`)

The integer impls (`packed_impl!`) write each `w`-byte integer in
little-endian order (`self.to_le()` stored byte-wise) and read it back with
`from_le`.  The derive implements a struct's `PackedStruct` by encoding /
decoding each field at the cumulative offset of the preceding fields, in
declaration order, with no padding (`Size` = sum of field sizes).

A packed record is modelled as its list of `(byte_width, value)` fields in
declaration order (values are the raw unsigned bit patterns). -/

/-- Little-endian encoding of a `w`-byte integer. -/
def encLE : Nat → Nat → List Nat
  | 0, _ => []
  | w + 1, v => v % 256 :: encLE w (v / 256)

/-- Little-endian decoding of a `w`-byte integer. -/
def decLE : Nat → List Nat → Nat
  | 0, _ => 0
  | _ + 1, [] => 0
  | w + 1, b :: rest => b + 256 * decLE w rest

/-- `PackedStruct::to_packed` via the derive: each field's encoding,
concatenated in declaration order. -/
def encodeFields (fields : List (Nat × Nat)) : List Nat :=
  match fields with
  | [] => []
  | f :: fs => encLE f.1 f.2 ++ encodeFields fs

/-- `PackedStruct::from_packed` via the derive: decode each field at the
cumulative offset of the previous fields; the input must be exactly
`Size` bytes (`GenericArray<u8, Size>`). -/
def decodeFields (widths : List Nat) (bytes : List Nat) : Option (List Nat) :=
  match widths with
  | [] => if bytes = [] then some [] else none
  | w :: ws =>
    if bytes.length < w then none
    else
      match decodeFields ws (bytes.drop w) with
      | some vs => some (decLE w (bytes.take w) :: vs)
      | none => none

theorem encLE_length (w v : Nat) : (encLE w v).length = w := by
  induction w generalizing v with
  | zero => rfl
  | succ w ih => simp [encLE, ih]

theorem decLE_encLE (w v : Nat) (h : v < 2 ^ (8 * w)) :
    decLE w (encLE w v) = v := by
  induction w generalizing v with
  | zero =>
    simp only [encLE, decLE]
    exact (by simpa using h : v = 0).symm
  | succ w ih =>
    have hpow : 2 ^ (8 * (w + 1)) = 2 ^ (8 * w) * 256 := by
      rw [show 8 * (w + 1) = 8 * w + 8 by ring, pow_add]
      norm_num
    have hdiv : v / 256 < 2 ^ (8 * w) := by
      rw [hpow] at h
      omega
    simp only [encLE, decLE, ih (v / 256) hdiv]
    omega

/-- C9: for every record of a packed struct type, `decode(encode(R)) = R`
and `len(encode(R)) = sizeof(T)`, fields concatenated in declaration order
and integers little-endian with no padding; and the concrete record
`{u32 = 0x01020304, u8 = 0xFF, u64 = 0x1122334455667788}` encodes to the
13-byte sequence `04 03 02 01 FF 88 77 66 55 44 33 22 11` and decodes back. -/
theorem C9_packed_roundtrip (fields : List (Nat × Nat))
    (hbounds : ∀ f ∈ fields, f.2 < 2 ^ (8 * f.1)) :
    decodeFields (fields.map Prod.fst) (encodeFields fields)
      = some (fields.map Prod.snd) ∧
    (encodeFields fields).length = (fields.map Prod.fst).sum ∧
    encodeFields [(4, 0x01020304), (1, 0xFF), (8, 0x1122334455667788)]
      = [0x04, 0x03, 0x02, 0x01, 0xFF, 0x88, 0x77, 0x66, 0x55, 0x44, 0x33, 0x22, 0x11] ∧
    decodeFields [4, 1, 8]
        [0x04, 0x03, 0x02, 0x01, 0xFF, 0x88, 0x77, 0x66, 0x55, 0x44, 0x33, 0x22, 0x11]
      = some [0x01020304, 0xFF, 0x1122334455667788] := by
  refine ⟨?_, ?_, by decide, by decide⟩
  · induction fields with
    | nil => rfl
    | cons f fs ih =>
      obtain ⟨w, v⟩ := f
      simp only [List.map_cons, encodeFields, decodeFields]
      rw [if_neg (by simp [encLE_length])]
      have htake : (encLE w v ++ encodeFields fs).take w = encLE w v :=
        List.take_left' (encLE_length w v)
      have hdrop : (encLE w v ++ encodeFields fs).drop w = encodeFields fs :=
        List.drop_left' (encLE_length w v)
      rw [htake, hdrop, ih (fun x hx => hbounds x (by simp [hx])),
        decLE_encLE w v (hbounds (w, v) (by simp))]
  · induction fields with
    | nil => rfl
    | cons f fs ih =>
      simp only [encodeFields, List.length_append, encLE_length, List.map_cons,
        List.sum_cons]
      rw [ih (fun x hx => hbounds x (by simp [hx]))]

/-- Witness for C9 at the concrete record of scenario S2. -/
theorem C9_witness :
    (∀ f ∈ [((4 : Nat), (0x01020304 : Nat)), (1, 0xFF), (8, 0x1122334455667788)],
      f.2 < 2 ^ (8 * f.1)) ∧
    (decodeFields ([((4 : Nat), (0x01020304 : Nat)), (1, 0xFF), (8, 0x1122334455667788)].map Prod.fst)
        (encodeFields [(4, 0x01020304), (1, 0xFF), (8, 0x1122334455667788)])
      = some ([((4 : Nat), (0x01020304 : Nat)), (1, 0xFF), (8, 0x1122334455667788)].map Prod.snd) ∧
    (encodeFields [((4 : Nat), (0x01020304 : Nat)), (1, 0xFF), (8, 0x1122334455667788)]).length
      = ([((4 : Nat), (0x01020304 : Nat)), (1, 0xFF), (8, 0x1122334455667788)].map Prod.fst).sum ∧
    encodeFields [(4, 0x01020304), (1, 0xFF), (8, 0x1122334455667788)]
      = [0x04, 0x03, 0x02, 0x01, 0xFF, 0x88, 0x77, 0x66, 0x55, 0x44, 0x33, 0x22, 0x11] ∧
    decodeFields [4, 1, 8]
        [0x04, 0x03, 0x02, 0x01, 0xFF, 0x88, 0x77, 0x66, 0x55, 0x44, 0x33, 0x22, 0x11]
      = some [0x01020304, 0xFF, 0x1122334455667788]) :=
  ⟨by decide, C9_packed_roundtrip _ (by decide)⟩

/-! ## `src/write/mod.rs`: the archive assembler (claim C1)

`Archive::flush` (`src/write/mod.rs:252-303`): it builds the id map and a
superblock, serialises only the *headers* of the inodes, writes the
superblock at offset 0 and then hits `unimplemented!()`.  Panics are
modelled as `Except.error`; the positioned-file writes are modelled as
succeeding (I/O failure would only add more failing paths). -/

inductive WritePanic
  | tooManyItems        -- `.expect("too many items")` (`inode_count: u32`)
  | tooManyIds          -- `.expect("too many ids")` (`id_count: u16`)
  | unimplementedKind   -- `Item::kind()`: `unimplemented!()` for non-directories
  | missingId           -- `all_ids.get(..).unwrap()`
  | unimplementedFlush  -- the `unimplemented!()` at the end of `flush`
  deriving DecidableEq, Repr

/-- `write::Data` (the item payload). -/
inductive ItemData
  | symlink (target : List Nat)
  | directory (entries : List (List Nat × Nat))  -- (name bytes, ItemRef)
  | blockDev (dev : Nat)
  | charDev (dev : Nat)
  | fifo
  | socket
  | file
  deriving DecidableEq, Repr

/-- `write::Item`. -/
structure WItem where
  uid : Nat
  gid : Nat
  mode : Nat
  mtime : Int   -- `DateTime<Utc>` as a Unix timestamp (`i64`)
  data : ItemData
  deriving DecidableEq, Repr

/-- `Item::kind()`: `BASIC_DIR` (= 1) for directories, `unimplemented!()`
for everything else. -/
def itemKind : ItemData → Option Nat
  | .directory _ => some 1
  | _ => none

/-- `date_time_to_mtime`: clamp the timestamp into `u32`. -/
def dateTimeToMtime (t : Int) : Nat :=
  if t > (2 ^ 32 - 1 : Int) then 2 ^ 32 - 1
  else if t < 0 then 0
  else t.toNat

/-- `repr::inode::Header` as written by the flush loop. -/
structure InodeHeader where
  inode_type : Nat
  permissions : Nat
  uid_idx : Nat
  gid_idx : Nat
  modified_time : Nat
  inode_number : Nat
  deriving DecidableEq, Repr

/-- The per-item loop of `flush`: `Item::kind()` (panics for
non-directories), id-map lookups, header record; `inode_number = Idx(i)`
(0-based `enumerate` index). -/
def buildInodeHeaders (ids : List Nat) : List WItem → Nat → Except WritePanic (List InodeHeader)
  | [], _ => .ok []
  | it :: rest, i =>
    match itemKind it.data with
    | none => .error .unimplementedKind
    | some k =>
      match ids.findIdx? (fun x => x = it.uid), ids.findIdx? (fun x => x = it.gid) with
      | some ui, some gi =>
        match buildInodeHeaders ids rest (i + 1) with
        | .ok hs => .ok (⟨k, it.mode, ui, gi, dateTimeToMtime it.mtime, i⟩ :: hs)
        | .error e => .error e
      | _, _ => .error .missingId

/-- `write::Archive` (the fields `flush` reads). -/
structure WriteArchive where
  mtime : Int
  block_size : Nat
  flags : Nat
  items : List WItem
  root : Nat
  uid_gid : List Nat  -- the `BTreeSet` as its sorted element list
  deriving DecidableEq, Repr

/-- `Archive::flush` (`src/write/mod.rs:252-303`): id map, superblock
construction (`inode_count`/`id_count` conversions can panic), the inode
header loop, the superblock write at offset 0 — and then `unimplemented!()`. -/
def flushArchive (a : WriteArchive) : Except WritePanic Unit :=
  if 2 ^ 32 ≤ a.items.length then .error .tooManyItems
  else if 2 ^ 16 ≤ a.uid_gid.length then .error .tooManyIds
  else
    match buildInodeHeaders a.uid_gid a.items 0 with
    | .error e => .error e
    | .ok _ => .error .unimplementedFlush

/-- C1 (the code violates it): `Archive::flush` never completes — every
call either panics in the loop or reaches the final `unimplemented!()`
after writing only a placeholder superblock and bare inode headers, so no
written archive exists to be read back, for any item tree (including the
single empty root directory).  The claimed write/read round-trip fails for
every input. -/
theorem C1_flush_never_completes :
    (∀ a : WriteArchive, ∃ e, flushArchive a = .error e) ∧
    flushArchive ⟨0, 131072, 0, [⟨0, 0, 0o755, 0, .directory []⟩], 0, [0]⟩
      = .error .unimplementedFlush := by
  constructor
  · intro a
    unfold flushArchive
    by_cases h1 : 2 ^ 32 ≤ a.items.length
    · exact ⟨.tooManyItems, by rw [if_pos h1]⟩
    · rw [if_neg h1]
      by_cases h2 : 2 ^ 16 ≤ a.uid_gid.length
      · exact ⟨.tooManyIds, by rw [if_pos h2]⟩
      · rw [if_neg h2]
        cases hb : buildInodeHeaders a.uid_gid a.items 0 with
        | error e => exact ⟨e, rfl⟩
        | ok hs => exact ⟨.unimplementedFlush, rfl⟩
  · rfl

/-- Witness for C1 at the concrete input (the single-empty-root archive). -/
theorem C1_witness :
    ∃ e, flushArchive ⟨0, 131072, 0, [⟨0, 0, 0o755, 0, .directory []⟩], 0, [0]⟩
      = .error e :=
  C1_flush_never_completes.1 ⟨0, 131072, 0, [⟨0, 0, 0o755, 0, .directory []⟩], 0, [0]⟩

/-! ## `src/write/dir.rs`: the directory builder (claim C5)

The builder streams entries into the directory table, emitting a header
(`repr::directory::Header`, 12 bytes) before each run of entries.  The
metablock-writer sink is modelled as the list of emitted
`(header, entries)` groups — `flush()` writes `self.header` then the
serialised `self.entries` — with each source `Entry` kept beside its
serialised `repr::directory::Entry` (8 bytes + name on disk) so the
grouping invariants can be stated.  The header-position capture
(`table.writer.position()`, which feeds the extended-directory index) is
not needed by the claim and is not modelled. -/

/-- `u32 as i32` (two's-complement reinterpretation). -/
def toI32 (x : Nat) : Int :=
  if x < 2 ^ 31 then (x : Int) else (x : Int) - 2 ^ 32

/-- Wrapping `i32` arithmetic (release semantics of the `i32` subtraction
in `inode_diff`; a debug build would panic on overflow instead). -/
def wrapI32 (z : Int) : Int :=
  (z + 2 ^ 31) % 2 ^ 32 - 2 ^ 31

/-- `inode_diff(ref_num, i)`: `(i.0 as i32 - ref_num.0 as i32).try_into().ok()`
(an `i16` `TryInto`). -/
def inodeDiff (refNum i : Nat) : Option Int :=
  let d := wrapI32 (toI32 i - toI32 refNum)
  if -(2 ^ 15) ≤ d ∧ d ≤ 2 ^ 15 - 1 then some d else none

/-- `MIN_INODE_NUM_REF = |i16::MIN| = 32768`. -/
def MIN_INODE_NUM_REF : Nat := 32768

/-- `MAX_INODE_NUM_REF = u32::MAX - i16::MAX = 4294934528`. -/
def MAX_INODE_NUM_REF : Nat := 2 ^ 32 - 1 - (2 ^ 15 - 1)

/-- `Ord::clamp(min, max)` on `u32` inode numbers. -/
def clampRef (x : Nat) : Nat :=
  if x < MIN_INODE_NUM_REF then MIN_INODE_NUM_REF
  else if MAX_INODE_NUM_REF < x then MAX_INODE_NUM_REF
  else x

/-- `repr::inode::Kind::to_basic`.  Modelled from the spec (the method is
called from `dir.rs` but not declared under `src/`): extended kinds
(8..14) map to their basic forms (1..7), basic kinds are unchanged
("kind-as-basic-form"). -/
def toBasicKind (k : Nat) : Nat :=
  if 8 ≤ k then k - 7 else k

/-- `repr::directory::Header { count: u32, start: u32, inode_number: Idx }`. -/
structure DirHeader where
  count : Nat
  start : Nat
  inode_number : Nat
  deriving DecidableEq, Repr

/-- `dir::Entry` (builder input): a packed inode `Ref`, the inode number,
the kind, and the name bytes. -/
structure DirEntry where
  inode : Nat
  inode_num : Nat
  inode_kind : Nat
  name : List Nat
  deriving DecidableEq, Repr

/-- `repr::directory::Entry` (8 bytes on disk, followed by the name). -/
structure RawDirEntry where
  offset : Nat
  inode_offset : Int
  kind : Nat
  name_size : Nat
  deriving DecidableEq, Repr

/-- The directory table: the running uncompressed size and the emitted
`(header, serialised entries)` groups. -/
structure DirTableM where
  total_size : Nat
  groups : List (DirHeader × List (RawDirEntry × DirEntry))
  deriving DecidableEq, Repr

/-- `DirBuilder`. -/
structure DirBuilderM where
  table : DirTableM
  header : DirHeader
  entries : List (RawDirEntry × DirEntry)
  crossed_metablock : Bool
  deriving DecidableEq, Repr

/-- The byte size of the serialised entry run: 8 raw bytes plus the name,
per entry (`entries: Vec<u8>` in the source). -/
def entriesByteLen (es : List (RawDirEntry × DirEntry)) : Nat :=
  (es.map (fun e => 8 + e.2.name.length)).sum

/-- `DirBuilder::total_size()`:
`table.total_size + size_of_val(&header) + entries.len()` (the header is
12 bytes). -/
def totalSizeB (b : DirBuilderM) : Nat :=
  b.table.total_size + 12 + entriesByteLen b.entries

/-- `DirBuilder::flush()`: when entries are pending, write the header and
the entry run (one emitted group), update the table's running size, and
reset the header state. -/
def flushB (b : DirBuilderM) : DirBuilderM :=
  if b.header.count ≠ 0 then
    { table := ⟨totalSizeB b, b.table.groups ++ [(b.header, b.entries)]⟩,
      header := ⟨0, 0, 0⟩, entries := [], crossed_metablock := false }
  else b

/-- `DirBuilder::add_entry` (`src/write/dir.rs:98-135`).  `none` models the
panics: the `name_len` `u16` conversion and the `inode_diff(..).unwrap()`
(the latter is proved unreachable below). -/
def addEntry (b : DirBuilderM) (e : DirEntry) : Option DirBuilderM :=
  let need_header := b.crossed_metablock || decide (256 ≤ b.header.count)
    || decide (b.header.start ≠ refBlockStart e.inode)
    || (inodeDiff b.header.inode_number e.inode_num).isNone
  let b' :=
    if need_header then
      let bf := flushB b
      { bf with header := ⟨bf.header.count, refBlockStart e.inode, clampRef e.inode_num⟩ }
    else b
  let prev_metablock := totalSizeB b' / SIZE
  let b'' := { b' with header := ⟨b'.header.count + 1, b'.header.start, b'.header.inode_number⟩ }
  if 2 ^ 16 ≤ e.name.length then none
  else
    match inodeDiff b''.header.inode_number e.inode_num with
    | none => none
    | some d =>
      let raw : RawDirEntry :=
        ⟨refStartOffset e.inode, d, toBasicKind e.inode_kind, (e.name.length + 65535) % 65536⟩
      let b₃ := { b'' with entries := b''.entries ++ [(raw, e)] }
      let curr_metablock := totalSizeB b₃ / SIZE
      some (if curr_metablock ≠ prev_metablock then { b₃ with crossed_metablock := true } else b₃)

/-- `Table::start_dir()`: fresh builder state with `start = !0`,
`inode_number = Idx(!0)`. -/
def startDir (t : DirTableM) : DirBuilderM :=
  ⟨t, ⟨0, 2 ^ 32 - 1, 2 ^ 32 - 1⟩, [], false⟩

/-- The entry loop of `Table::dir`. -/
def addEntries (b : DirBuilderM) : List DirEntry → Option DirBuilderM
  | [] => some b
  | e :: es =>
    match addEntry b e with
    | some b' => addEntries b' es
    | none => none

/-- `Table::dir(contents)`: stream all entries, then flush. -/
def dirStream (t : DirTableM) (es : List DirEntry) : Option DirTableM :=
  match addEntries (startDir t) es with
  | some b => some (flushB b).table
  | none => none

/-- The invariant of an emitted header group: the header's count matches
and is at most 256, every entry under it references the header's inode
metablock start, and every entry's stored delta is `inode_diff` of its
inode number from the header's reference number and fits in `i16`. -/
def GroupOk (g : DirHeader × List (RawDirEntry × DirEntry)) : Prop :=
  g.1.count = g.2.length ∧ g.1.count ≤ 256 ∧
  ∀ p ∈ g.2, refBlockStart p.2.inode = g.1.start ∧
    inodeDiff g.1.inode_number p.2.inode_num = some p.1.inode_offset ∧
    -(2 ^ 15) ≤ p.1.inode_offset ∧ p.1.inode_offset ≤ 2 ^ 15 - 1

/-- The running-builder invariant (the pending group satisfies `GroupOk`
at any flush point). -/
def BInv (b : DirBuilderM) : Prop :=
  b.header.count = b.entries.length ∧ b.header.count ≤ 256 ∧
  ∀ p ∈ b.entries, refBlockStart p.2.inode = b.header.start ∧
    inodeDiff b.header.inode_number p.2.inode_num = some p.1.inode_offset ∧
    -(2 ^ 15) ≤ p.1.inode_offset ∧ p.1.inode_offset ≤ 2 ^ 15 - 1

/-- The clamped header reference can always express the entry's own inode
number as an `i16` delta. -/
theorem inodeDiff_clampRef (x : Nat) (hx : x < 2 ^ 32) :
    ∃ d, inodeDiff (clampRef x) x = some d ∧
      -(2 ^ 15) ≤ d ∧ d ≤ 2 ^ 15 - 1 := by
  have hcond : -(2 ^ 15) ≤ wrapI32 (toI32 x - toI32 (clampRef x)) ∧
      wrapI32 (toI32 x - toI32 (clampRef x)) ≤ 2 ^ 15 - 1 := by
    unfold wrapI32 toI32 clampRef MIN_INODE_NUM_REF MAX_INODE_NUM_REF
    split_ifs <;> omega
  exact ⟨_, by unfold inodeDiff; rw [if_pos hcond], hcond.1, hcond.2⟩

/-- `flush` emits a `GroupOk` group (or nothing) and resets the builder. -/
theorem flushB_spec (b : DirBuilderM) (hinv : BInv b) :
    BInv (flushB b) ∧ (flushB b).header.count = 0 ∧ (flushB b).entries = [] ∧
      ((flushB b).table.groups = b.table.groups ∨
        ((flushB b).table.groups = b.table.groups ++ [(b.header, b.entries)] ∧
          GroupOk (b.header, b.entries))) := by
  obtain ⟨hcount, hle, hents⟩ := hinv
  unfold flushB
  by_cases h : b.header.count ≠ 0
  · rw [if_pos h]
    refine ⟨⟨rfl, by simp, by simp⟩, rfl, rfl, Or.inr ⟨rfl, hcount, hle, hents⟩⟩
  · rw [if_neg h]
    push_neg at h
    have hnil : b.entries = [] := by
      rw [h] at hcount
      exact (List.length_eq_zero.mp hcount.symm)
    exact ⟨⟨hcount, hle, hents⟩, h, hnil, Or.inl rfl⟩

/-- Inversion for a successful `inode_diff`. -/
theorem inodeDiff_bounds (r i : Nat) (d : Int) (h : inodeDiff r i = some d) :
    -(2 ^ 15) ≤ d ∧ d ≤ 2 ^ 15 - 1 := by
  simp only [inodeDiff] at h
  split_ifs at h with hcond
  cases h
  exact hcond

/-- One `add_entry` step: it succeeds (for `u32` inode numbers and `u16`
name lengths), preserves the builder invariant, and any newly emitted
group is `GroupOk`. -/
theorem addEntry_spec (b : DirBuilderM) (e : DirEntry) (hinv : BInv b)
    (hx : e.inode_num < 2 ^ 32) (hn : e.name.length < 2 ^ 16) :
    ∃ b', addEntry b e = some b' ∧ BInv b' ∧
      (∀ g ∈ b'.table.groups, g ∈ b.table.groups ∨ GroupOk g) := by
  unfold addEntry
  by_cases hnh : (b.crossed_metablock || decide (256 ≤ b.header.count)
      || decide (b.header.start ≠ refBlockStart e.inode)
      || (inodeDiff b.header.inode_number e.inode_num).isNone) = true
  · -- a new header is emitted: flush, then clamp the reference number
    rw [hnh]
    simp only [if_true]
    obtain ⟨hinvF, hcF, heF, hgF⟩ := flushB_spec b hinv
    obtain ⟨d, hd, hd1, hd2⟩ := inodeDiff_clampRef e.inode_num hx
    rw [if_neg (by omega)]
    simp only [hcF, heF, hd]
    refine ⟨_, rfl, ?_, ?_⟩
    · -- the new builder state (crossed or not) satisfies the invariant
      split <;>
      · refine ⟨by simp, by norm_num, ?_⟩
        intro p hp
        simp only [List.nil_append, List.mem_singleton] at hp
        subst hp
        exact ⟨rfl, hd, hd1, hd2⟩
    · -- groups: only the flushed group is new, and it is GroupOk
      split <;>
      · dsimp only
        intro g hg
        rcases hgF with h | ⟨h, hok⟩
        · rw [h] at hg
          exact Or.inl hg
        · rw [h] at hg
          rcases List.mem_append.mp hg with h1 | h1
          · exact Or.inl h1
          · simp only [List.mem_singleton] at h1
            subst h1
            exact Or.inr hok
  · -- no new header: the running header still covers the entry
    have hfalse : (b.crossed_metablock || decide (256 ≤ b.header.count)
        || decide (b.header.start ≠ refBlockStart e.inode)
        || (inodeDiff b.header.inode_number e.inode_num).isNone) = false := by
      simp only [Bool.not_eq_true] at hnh
      exact hnh
    have hparts := hfalse
    simp only [Bool.or_eq_false_iff, decide_eq_false_iff_not, not_not] at hparts
    obtain ⟨⟨⟨hcross, h256⟩, hstart⟩, hnone⟩ := hparts
    obtain ⟨d, hd⟩ : ∃ d, inodeDiff b.header.inode_number e.inode_num = some d := by
      cases hdm : inodeDiff b.header.inode_number e.inode_num with
      | none => rw [hdm] at hnone; exact absurd hnone (by simp)
      | some d => exact ⟨d, rfl⟩
    obtain ⟨hcount, hle, hents⟩ := hinv
    obtain ⟨hdb1, hdb2⟩ := inodeDiff_bounds _ _ _ hd
    simp only [hfalse, Bool.false_eq_true, if_false]
    rw [if_neg (by omega)]
    rw [hd]
    refine ⟨_, rfl, ?_, ?_⟩
    · -- invariant: count grows with the entry, same header reference
      split <;>
      · refine ⟨by simp [← hcount], by dsimp only; omega, ?_⟩
        intro p hp
        rcases List.mem_append.mp hp with h1 | h1
        · exact hents p h1
        · simp only [List.mem_singleton] at h1
          subst h1
          exact ⟨hstart.symm, hd, hdb1, hdb2⟩
    · -- no group was emitted
      split <;>
      · dsimp only
        intro g hg
        exact Or.inl hg

/-- `addEntry_spec` folded over a listing. -/
theorem addEntries_spec :
    ∀ (es : List DirEntry) (b : DirBuilderM), BInv b →
      (∀ e ∈ es, e.inode_num < 2 ^ 32 ∧ e.name.length < 2 ^ 16) →
      ∃ b', addEntries b es = some b' ∧ BInv b' ∧
        (∀ g ∈ b'.table.groups, g ∈ b.table.groups ∨ GroupOk g) := by
  intro es
  induction es with
  | nil =>
    intro b hinv hes
    exact ⟨b, rfl, hinv, fun g hg => Or.inl hg⟩
  | cons e es ih =>
    intro b hinv hes
    obtain ⟨he1, he2⟩ := hes e (by simp)
    obtain ⟨b₁, hb₁, hinv₁, hg₁⟩ := addEntry_spec b e hinv he1 he2
    obtain ⟨b₂, hb₂, hinv₂, hg₂⟩ := ih b₁ hinv₁ (fun x hx => hes x (by simp [hx]))
    refine ⟨b₂, ?_, hinv₂, ?_⟩
    · simp only [addEntries, hb₁]
      exact hb₂
    · intro g hg
      rcases hg₂ g hg with h | h
      · exact hg₁ g h
      · exact Or.inr h

/-- `Table::dir` in full: every group emitted for the listing is `GroupOk`. -/
theorem dirStream_spec (t : DirTableM) (es : List DirEntry)
    (hes : ∀ e ∈ es, e.inode_num < 2 ^ 32 ∧ e.name.length < 2 ^ 16) :
    ∃ t', dirStream t es = some t' ∧
      ∀ g ∈ t'.groups, g ∈ t.groups ∨ GroupOk g := by
  have hinv0 : BInv (startDir t) :=
    ⟨rfl, by show (0 : Nat) ≤ 256; norm_num, by intro p hp; simp [startDir] at hp⟩
  obtain ⟨b', hb', hinv', hg'⟩ := addEntries_spec es (startDir t) hinv0 hes
  obtain ⟨hinvF, hcF, heF, hgF⟩ := flushB_spec b' hinv'
  refine ⟨(flushB b').table, ?_, ?_⟩
  · simp only [dirStream, hb']
  · intro g hg
    rcases hgF with h | ⟨h, hok⟩
    · rw [h] at hg
      exact hg' g hg
    · rw [h] at hg
      rcases List.mem_append.mp hg with h1 | h1
      · exact hg' g h1
      · simp only [List.mem_singleton] at h1
        subst h1
        exact Or.inr hok

/-- A directory listing of `n` children: all inodes share metablock start
0, inode numbers `50000 + i` (within ±32 KiB of the clamped reference),
one-byte names (so 9 bytes per entry plus 12 per header — no 8 KiB
boundary is crossed below 257 entries). -/
def dirFam (n : Nat) : List DirEntry :=
  (List.range n).map (fun i => ⟨refNew 0 0, 50000 + i, 2, [97]⟩)

/-- C5: between two consecutive emitted directory headers the entry count
is at most 256, all entries reference the header's inode metablock start,
and each entry's stored inode-number delta from the header's reference is
its `inode_diff` and fits in `i16`; a directory of exactly 256 such
children yields exactly one header, and one of 257 yields exactly two. -/
theorem C5_dir_header_grouping (t : DirTableM) (es : List DirEntry)
    (hes : ∀ e ∈ es, e.inode_num < 2 ^ 32 ∧ e.name.length < 2 ^ 16) :
    (∃ t', dirStream t es = some t' ∧
      ∀ g ∈ t'.groups, g ∈ t.groups ∨ GroupOk g) ∧
    (dirStream ⟨0, []⟩ (dirFam 256)).map (fun x => x.groups.length) = some 1 ∧
    (dirStream ⟨0, []⟩ (dirFam 257)).map (fun x => x.groups.length) = some 2 :=
  ⟨dirStream_spec t es hes, by decide, by decide⟩

/-- Witness for C5 at the concrete input: the empty table and listing. -/
theorem C5_witness :
    (∀ e ∈ ([] : List DirEntry), e.inode_num < 2 ^ 32 ∧ e.name.length < 2 ^ 16) ∧
    ((∃ t', dirStream ⟨0, []⟩ [] = some t' ∧
      ∀ g ∈ t'.groups, g ∈ (⟨0, []⟩ : DirTableM).groups ∨ GroupOk g) ∧
    (dirStream ⟨0, []⟩ (dirFam 256)).map (fun x => x.groups.length) = some 1 ∧
    (dirStream ⟨0, []⟩ (dirFam 257)).map (fun x => x.groups.length) = some 2) :=
  ⟨by simp, C5_dir_header_grouping ⟨0, []⟩ [] (by simp)⟩

/-! ## The position contract (claim C6)

What a metablock reference denotes: `block_start` is a byte offset into
the writer's (compressed, framed) output at which a metablock header must
begin; the reference points at byte `offset_within` of that metablock's
uncompressed body — equivalently, at index
(total uncompressed size of the preceding metablocks) `+ offset_within`
of the stream's logical (uncompressed) byte sequence. -/

/-- Total uncompressed length of the metablocks occupying the first `b`
bytes of the framed stream; `none` if `b` does not fall on a metablock
boundary or a body cannot be decoded. -/
def uncompLenUpTo (c? : Option Codec) (bytes : List Nat) (b : Nat) : Option Nat :=
  if b = 0 then some 0
  else
    match bytes with
    | b0 :: b1 :: rest =>
      let v := ofLE16 b0 b1
      let size := headerSize v
      if rest.length < size then none
      else
        match decodeBody c? (rest.take size, headerCompressed v) with
        | none => none
        | some body =>
          if b < 2 + size then none
          else
            match uncompLenUpTo c? (rest.drop size) (b - (2 + size)) with
            | some u => some (body.length + u)
            | none => none
    | _ => none
termination_by bytes.length
decreasing_by
  simp only [List.length_drop, List.length_cons]
  omega

/-- The logical (uncompressed) byte index a packed metablock reference
denotes within a framed stream. -/
def denoteRef (c? : Option Codec) (bytes : List Nat) (r : Nat) : Option Nat :=
  match uncompLenUpTo c? bytes (refBlockStart r) with
  | some u => some (u + refStartOffset r)
  | none => none

/-- Walking a fully framed prefix accumulates exactly its decoded length,
regardless of what follows. -/
theorem uncompLenUpTo_frame (c? : Option Codec)
    (blocks : List (List Nat × Bool)) (bodies : List (List Nat))
    (extra : List Nat)
    (hdec : decodeBlocks c? blocks = some bodies)
    (hsz : ∀ b ∈ blocks, b.1.length ≤ SIZE) :
    uncompLenUpTo c? (frameBytes blocks ++ extra) (frameBytes blocks).length
      = some bodies.flatten.length := by
  induction blocks generalizing bodies extra with
  | nil =>
    simp only [decodeBlocks, Option.some.injEq] at hdec
    subst hdec
    simp only [frameBytes, List.length_nil, List.nil_append]
    rw [uncompLenUpTo.eq_def, if_pos rfl]
    simp
  | cons blk bs ih =>
    obtain ⟨d, fl⟩ := blk
    have hd : d.length ≤ SIZE := hsz (d, fl) (by simp)
    have hd15 : d.length < 2 ^ 15 := by unfold SIZE at hd; omega
    have hv : headerValue d.length fl < 2 ^ 16 := by
      rw [headerValue_eq d.length fl hd15]
      cases fl <;> simp <;> omega
    simp only [decodeBlocks] at hdec
    cases hdb : decodeBody c? (d, fl) with
    | none => rw [hdb] at hdec; exact absurd hdec (by simp)
    | some body =>
      rw [hdb] at hdec
      cases hds : decodeBlocks c? bs with
      | none => rw [hds] at hdec; exact absurd hdec (by simp)
      | some bodies' =>
        rw [hds] at hdec
        simp only [Option.some.injEq] at hdec
        subst hdec
        have hshape : frameBytes ((d, fl) :: bs) ++ extra
            = (headerValue d.length fl) % 256 :: ((headerValue d.length fl) / 256 % 256)
              :: (d ++ (frameBytes bs ++ extra)) := by
          simp [frameBytes, toLE16, List.append_assoc]
        have hlen : (frameBytes ((d, fl) :: bs)).length
            = 2 + d.length + (frameBytes bs).length := by
          simp only [frameBytes, toLE16, List.length_append, List.length_cons,
            List.length_nil]
          try omega
        rw [hshape, hlen, uncompLenUpTo.eq_def]
        rw [if_neg (by omega)]
        dsimp only
        rw [ofLE16_toLE16 _ hv, headerSize_headerValue _ _ hd15,
          headerCompressed_headerValue _ _ hd15]
        rw [if_neg (by simp only [List.length_append]; omega)]
        rw [List.take_left' rfl, List.drop_left' rfl]
        simp only [hdb]
        rw [if_neg (by omega)]
        have harith : 2 + d.length + (frameBytes bs).length - (2 + d.length)
            = (frameBytes bs).length := by omega
        rw [harith, ih bodies' extra hds (fun x hx => hsz x (by simp [hx]))]
        simp only [List.flatten_cons, List.length_append, Option.some.injEq]
        try omega

/-- C6 (amended): `position()` returns the packed pair
`(len(output), len(current buffer))`; `offset_within ≤ 8192`, with 8192
reached exactly when appends have just filled the 8 KiB buffer (the claim
stated the strict bound `offset_within < 8192`, which fails there — see
the counterexample); and `block_start` only grows at flush boundaries, so
a reference captured after appending `xs` still denotes logical byte
`len(concat xs)` of the uncompressed stream after any further appends
`ys`. -/
theorem C6_position_contract (c? : Option Codec) (hG : GoodCodec c?)
    (xs ys : List (List Nat)) :
    ∃ w₀ w₁, (MetablockWriter.new c?).writeAll xs = some w₀ ∧
      w₀.writeAll ys = some w₁ ∧
      w₀.position = refNew w₀.output.length w₀.current.length ∧
      refStartOffset w₀.position = w₀.current.length ∧
      w₀.current.length ≤ SIZE ∧
      (w₀.output.length < 2 ^ 32 →
        denoteRef c? w₀.output w₀.position = some xs.flatten.length ∧
        denoteRef c? w₁.output w₀.position = some xs.flatten.length) := by
  obtain ⟨w₀, nb₀, nd₀, hw₀, hc₀, hout₀, hcur₀, hdec₀, hbs₀, hsz₀, hflat₀, hne₀⟩ :=
    writeAll_spec c? hG xs (MetablockWriter.new c?) [] [] rfl rfl
      (by simp [MetablockWriter.new, SIZE]) rfl (by simp) (by simp)
  obtain ⟨w₁, nb₁, nd₁, hw₁, hc₁, hout₁, hcur₁, hdec₁, hbs₁, hsz₁, hflat₁, hne₁⟩ :=
    writeAll_spec c? hG ys w₀ nb₀ nd₀ hc₀ (by simpa using hout₀) hcur₀
      (by simpa using hdec₀) (by simpa using hbs₀) (by simpa using hsz₀)
  have hcur16 : w₀.current.length < 2 ^ 16 := by
    unfold SIZE at hcur₀
    omega
  have hoff : refStartOffset w₀.position = w₀.current.length := by
    unfold MetablockWriter.position
    exact refStartOffset_refNew _ _ hcur16
  have hflatlen : nd₀.flatten.length + w₀.current.length = xs.flatten.length := by
    have h := congrArg List.length hflat₀
    simp only [List.length_append, MetablockWriter.new, List.length_nil] at h
    omega
  refine ⟨w₀, w₁, hw₀, hw₁, rfl, hoff, hcur₀, ?_⟩
  intro hlt32
  have hblock : refBlockStart w₀.position = w₀.output.length := by
    unfold MetablockWriter.position
    exact refBlockStart_refNew _ _ hlt32 hcur16
  have houtF : w₀.output = frameBytes nb₀ := by simpa using hout₀
  have hdecF : decodeBlocks c? nb₀ = some nd₀ := by simpa using hdec₀
  have hszF : ∀ b ∈ nb₀, b.1.length ≤ SIZE := by simpa using hsz₀
  have hden : ∀ out, uncompLenUpTo c? out w₀.output.length = some nd₀.flatten.length →
      denoteRef c? out w₀.position = some xs.flatten.length := by
    intro out hu
    unfold denoteRef
    rw [hblock]
    simp only [hu]
    rw [hoff]
    exact congrArg some (by omega)
  constructor
  · apply hden
    have h := uncompLenUpTo_frame c? nb₀ nd₀ [] hdecF hszF
    rw [List.append_nil] at h
    rw [houtF]
    exact h
  · apply hden
    rw [hout₁, frameBytes_append, houtF]
    exact uncompLenUpTo_frame c? nb₀ nd₀ (frameBytes nb₁) hdecF hszF

/-- Counterexample to C6 as stated: appending exactly 8192 bytes leaves
the full block buffered (its flush is deferred to the next append), and
`position()` then reports `offset_within = 8192`, not `< 8192`. -/
theorem C6_counterexample :
    ((MetablockWriter.new none).writeRaw (List.replicate 8192 0)).map
      (fun w => refStartOffset w.position) = some 8192 := by
  have hc : ¬ (SIZE - (MetablockWriter.new none).current.length
      < (List.replicate 8192 (0 : Nat)).length) := by
    rw [List.length_replicate]
    show ¬ (SIZE - ([] : List Nat).length < 8192)
    rw [List.length_nil]
    unfold SIZE
    omega
  have h : (MetablockWriter.new none).writeRaw (List.replicate 8192 0)
      = some ⟨none, [], [] ++ List.replicate 8192 0⟩ := by
    rw [MetablockWriter.writeRaw, if_neg hc]
    rfl
  rw [h]
  rw [Option.map_some']
  refine congrArg some ?_
  show refStartOffset (refNew (List.length ([] : List Nat))
    (([] : List Nat) ++ List.replicate 8192 (0 : Nat)).length) = 8192
  rw [List.nil_append, List.length_replicate, List.length_nil]
  exact refStartOffset_refNew 0 8192 (by norm_num)

/-- Witness for C6 at the concrete input: no codec, one append, none after. -/
theorem C6_witness :
    GoodCodec none ∧
    (∃ w₀ w₁, (MetablockWriter.new none).writeAll [[1, 2]] = some w₀ ∧
      w₀.writeAll [] = some w₁ ∧
      w₀.position = refNew w₀.output.length w₀.current.length ∧
      refStartOffset w₀.position = w₀.current.length ∧
      w₀.current.length ≤ SIZE ∧
      (w₀.output.length < 2 ^ 32 →
        denoteRef none w₀.output w₀.position = some ([[1, 2]] : List (List Nat)).flatten.length ∧
        denoteRef none w₁.output w₀.position = some ([[1, 2]] : List (List Nat)).flatten.length)) :=
  ⟨fun c h => absurd h (by simp),
    C6_position_contract none (fun c h => absurd h (by simp)) [[1, 2]] []⟩

end Squashfs
